import Mathlib

/-
Shallow embedding of the dispatch layer of mhussainahmad/desearch.

Source files embedded here:
- src/neurons/validators/proxy/uid_manager.py  (class UIDManager: resync, get_miner_uid)
- src/neurons/validators/api.py                (response_stream_event, aggregate_search_results)

Modelling conventions:
- The external metagraph's incentive ranking `self.metagraph.I.argsort()[::-1]` is passed
  to each operation as a `ranking : List Nat` argument (the list of worker uids in rank-descending
  order, a permutation of the worker indices, hence duplicate-free).
- `random.choice(self.uids)` is modelled by an arbitrary draw index `k`, reduced modulo the
  current list length; every index is reachable for some `k`.
- Python exceptions of the merge loop (TypeError from `getattr(synapse, None)`, AttributeError
  from `.extend` on a dict/str, KeyError from a missing dict key) are modelled with
  `Except MergeErr`.
- Python values held in Synapse response fields are modelled by `RValue`:
  `None`, a list (of opaque items, modelled as strings), a dict (modelled as association list
  from string keys to numbers), or a string scalar; Python truthiness is `RValue.truthy`.
-/

/-! ### UIDManager (src/neurons/validators/proxy/uid_manager.py) -/

/-- State of a `UIDManager` instance.  The `wallet`/`metagraph` handles are external
objects; of the metagraph only the incentive ranking is read, and it is passed to each
operation as an explicit argument. -/
structure UIDState where
  max_miners_to_use : Nat
  uids : List Nat
  available_uids : List Nat
  top_uids : List Nat
deriving DecidableEq

/-- `UIDManager.__init__`: `max_miners_to_use = 100`, `uids = []`, `available_uids = []`.
(`top_uids` is first assigned in `resync`; we initialise it to `[]`.) -/
def UIDManager.initState : UIDState :=
  { max_miners_to_use := 100, uids := [], available_uids := [], top_uids := [] }

/-- `UIDManager.resync(available_uids)`:
- no-op when `available_uids` is empty;
- `self.top_uids = self.metagraph.I.argsort()[::-1][: self.max_miners_to_use]`
  (here: `ranking.take max_miners_to_use` where `ranking` is the descending argsort);
- if `self.uids` is non-empty, keep only those still in `available_uids`;
- if `self.uids` ended up empty, rebuild it from `top_uids` filtered by availability. -/
def UIDManager.resync (st : UIDState) (ranking : List Nat) (available_uids : List Nat) :
    UIDState :=
  if available_uids.length = 0 then st
  else
    let top_uids := ranking.take st.max_miners_to_use
    let uids1 := if st.uids.length ≠ 0 then
        st.uids.filter (fun uid => decide (uid ∈ available_uids))
      else st.uids
    let uids2 := if uids1.length = 0 then
        top_uids.filter (fun uid => decide (uid ∈ available_uids))
      else uids1
    { st with available_uids := available_uids, top_uids := top_uids, uids := uids2 }

/-- The first two lines of `UIDManager.get_miner_uid`:
`if len(self.uids) == 0: self.resync(self.available_uids)`. -/
def UIDManager.refillIfEmpty (st : UIDState) (ranking : List Nat) : UIDState :=
  if st.uids.length = 0 then UIDManager.resync st ranking st.available_uids else st

/-- `UIDManager.get_miner_uid`: refill the draw list if empty, then
`uid = random.choice(self.uids); self.uids.remove(uid); return uid`.
`random.choice` on an empty list raises `IndexError`, modelled as `none`;
the random index is modelled by `k % len`. -/
def UIDManager.get_miner_uid (st : UIDState) (ranking : List Nat) (k : Nat) :
    Option (Nat × UIDState) :=
  let st1 := UIDManager.refillIfEmpty st ranking
  if h : st1.uids.length = 0 then none
  else
    let uid := st1.uids.get ⟨k % st1.uids.length, Nat.mod_lt k (Nat.pos_of_ne_zero h)⟩
    some (uid, { st1 with uids := st1.uids.erase uid })

/-- A sequence of consecutive `get_miner_uid` calls (no external `resync` in between),
one draw index per call; `none` if any draw raises. -/
def UIDManager.drawMany (st : UIDState) (ranking : List Nat) :
    List Nat → Option (List Nat × UIDState)
  | [] => some ([], st)
  | k :: ks =>
    match UIDManager.get_miner_uid st ranking k with
    | none => none
    | some (uid, st') =>
      match UIDManager.drawMany st' ranking ks with
      | none => none
      | some (uids, st'') => some (uid :: uids, st'')

/-- States of a `UIDManager` reachable by the program: freshly constructed, or obtained
from a reachable state by `resync` or by a successful `get_miner_uid`.  The `ranking`
argument of each operation is a descending argsort of the incentive vector, hence
duplicate-free. -/
inductive UIDManager.Reachable : UIDState → Prop where
  | init : UIDManager.Reachable UIDManager.initState
  | resync_step {st : UIDState} {ranking avail : List Nat} :
      UIDManager.Reachable st → ranking.Nodup →
      UIDManager.Reachable (UIDManager.resync st ranking avail)
  | draw_step {st st' : UIDState} {ranking : List Nat} {k uid : Nat} :
      UIDManager.Reachable st → ranking.Nodup →
      UIDManager.get_miner_uid st ranking k = some (uid, st') →
      UIDManager.Reachable st'

/-- The spec's CandidatePool: the top-K reachable workers ordered by rank descending
("recompute CandidatePool as the top-K (K configurable, default 100) reachable workers
ordered by rank descending").  Stated from the spec's words for comparison with the
code's `top_uids`, which takes the top K of all workers before filtering. -/
def candidatePoolSpec (ranking : List Nat) (avail : List Nat) (K : Nat) : List Nat :=
  (ranking.filter (fun uid => decide (uid ∈ avail))).take K

/-! ### Stream relay (`response_stream_event` in src/neurons/validators/api.py) -/

/-- Python `str.split("\n")` on the character list of a chunk: always returns at least
one (possibly empty) line; every newline character ends the current line. -/
def pySplitNlChars : List Char → List (List Char)
  | [] => [[]]
  | c :: cs =>
    let rest := pySplitNlChars cs
    if c = '\n' then [] :: rest
    else
      match rest with
      | [] => [[c]]
      | l :: ls => (c :: l) :: ls

/-- Python `chunk.split("\n")`. -/
def pySplitNl (s : String) : List String :=
  (pySplitNlChars s.toList).map (fun cs => String.mk cs)

/-- Python `sep.join(parts)`. -/
def pyJoin (sep : String) : List String → String
  | [] => ""
  | [x] => x
  | x :: xs => x ++ sep ++ pyJoin sep xs

/-- One loop body of `response_stream_event`: for a chunk,
`lines = chunk.split("\n")`;
`sse_data = "\n".join(f"data: {line if line else ' '}" for line in lines)`;
`yield f"{sse_data}\n\n"`. -/
def frameChunk (chunk : String) : String :=
  let lines := pySplitNl chunk
  let sse_data := pyJoin "\n" (lines.map (fun line => "data: " ++ (if line = "" then " " else line)))
  sse_data ++ "\n\n"

/-- One hex digit, lowercase, as produced by Python's `json.dumps` unicode escapes. -/
def hexDigit (n : Nat) : Char :=
  if n < 10 then Char.ofNat (48 + n) else Char.ofNat (87 + n)

/-- Four lowercase hex digits. -/
def hex4 (n : Nat) : String :=
  String.mk [hexDigit (n / 4096 % 16), hexDigit (n / 256 % 16), hexDigit (n / 16 % 16),
    hexDigit (n % 16)]

/-- Escaping of one character inside a JSON string, as Python's `json.dumps` does with
its default `ensure_ascii=True`: short escapes for the common control characters,
`\uXXXX` (with surrogate pairs above the BMP) for everything outside `0x20`-`0x7e`. -/
def pyJsonEscapeChar (c : Char) : String :=
  if c = '"' then "\\\""
  else if c = '\\' then "\\\\"
  else if c = '\n' then "\\n"
  else if c = '\r' then "\\r"
  else if c = '\t' then "\\t"
  else if c = Char.ofNat 8 then "\\b"
  else if c = Char.ofNat 12 then "\\f"
  else if c.toNat < 32 ∨ c.toNat > 126 then
    if c.toNat < 65536 then "\\u" ++ hex4 c.toNat
    else
      let m := c.toNat - 65536
      "\\u" ++ hex4 (55296 + m / 1024) ++ "\\u" ++ hex4 (56320 + m % 1024)
  else String.mk [c]

/-- A JSON string literal for `s`, as `json.dumps` renders it. -/
def pyJsonStr (s : String) : String :=
  "\"" ++ String.join (s.toList.map pyJsonEscapeChar) ++ "\""

/-- `json.dumps({'error': str(e)})`. -/
def pyJsonDumpsErr (msg : String) : String :=
  "\x7b\"error\": " ++ pyJsonStr msg ++ "\x7d"

/-- The single error event yielded by the `except` branch of `response_stream_event`:
`yield f"data: {json.dumps({'error': str(e)})}\n\n"`. -/
def errorEvent (msg : String) : String :=
  "data: " ++ pyJsonDumpsErr msg ++ "\n\n"

/-- The relay `response_stream_event`, as the event sequence it yields.  The upstream
producer is modelled by the list of chunks it yields (each already converted by
`str(response)`) together with `some e` if it then raises a failure whose textual
description is `e`, or `none` if it ends normally.  The `try`/`except` wraps the whole
loop: chunks yielded before the failure are framed normally, then the failure becomes
exactly one terminal error event and the generator returns. -/
def response_stream_event : List String → Option String → List String
  | [], none => []
  | [], some e => [errorEvent e]
  | c :: cs, err => frameChunk c :: response_stream_event cs err

/-! ### Result aggregation (`aggregate_search_results` in src/neurons/validators/api.py) -/

/-- A Python value held in a Synapse response field: `None`, a list (items opaque,
modelled as strings), a dict (modelled as an association list from string keys to
numbers), or a string scalar. -/
inductive RValue where
  | vnone : RValue
  | vlist : List String → RValue
  | vdict : List (String × Nat) → RValue
  | vstr : String → RValue
deriving DecidableEq

/-- Python truthiness (`if result:`): `None`, `[]`, `{}` and `""` are falsy. -/
def RValue.truthy : RValue → Bool
  | .vnone => false
  | .vlist xs => !xs.isEmpty
  | .vdict kvs => !kvs.isEmpty
  | .vstr s => s ≠ ""

/-- A `bt.Synapse` response restricted to the nine result fields read by
`aggregate_search_results`. -/
structure Synapse where
  miner_tweets : RValue := .vnone
  search_results : RValue := .vnone
  google_news_search_results : RValue := .vnone
  google_image_search_results : RValue := .vnone
  arxiv_search_results : RValue := .vnone
  wikipedia_search_results : RValue := .vnone
  youtube_search_results : RValue := .vnone
  hacker_news_search_results : RValue := .vnone
  reddit_search_results : RValue := .vnone
deriving DecidableEq

/-- The fixed `field_mapping` table of `aggregate_search_results`. -/
def field_mapping : List (String × String) :=
  [("Twitter Search", "miner_tweets"),
   ("Google Search", "search_results"),
   ("Google News Search", "google_news_search_results"),
   ("Google Image Search", "google_image_search_results"),
   ("ArXiv Search", "arxiv_search_results"),
   ("Wikipedia Search", "wikipedia_search_results"),
   ("Youtube Search", "youtube_search_results"),
   ("Hacker News Search", "hacker_news_search_results"),
   ("Reddit Search", "reddit_search_results")]

/-- Association-list lookup, as Python's `dict.get` (first match; the tables used here
have duplicate-free keys). -/
def lookupStr : List (String × String) → String → Option String
  | [], _ => none
  | (k, v) :: rest, t => if k = t then some v else lookupStr rest t

/-- `getattr(synapse, field_name)` for the nine modelled fields; `none` models the
`AttributeError` raised for any other attribute name. -/
def Synapse.getattrOpt (s : Synapse) (field_name : String) : Option RValue :=
  if field_name = "miner_tweets" then some s.miner_tweets
  else if field_name = "search_results" then some s.search_results
  else if field_name = "google_news_search_results" then some s.google_news_search_results
  else if field_name = "google_image_search_results" then some s.google_image_search_results
  else if field_name = "arxiv_search_results" then some s.arxiv_search_results
  else if field_name = "wikipedia_search_results" then some s.wikipedia_search_results
  else if field_name = "youtube_search_results" then some s.youtube_search_results
  else if field_name = "hacker_news_search_results" then some s.hacker_news_search_results
  else if field_name = "reddit_search_results" then some s.reddit_search_results
  else none

/-- Exceptions the merge loop can raise:
`TypeError` from `getattr(synapse, None)` when `field_mapping.get(tool)` is `None`;
`AttributeError` from `.extend` on a dict/str value (or a bad attribute name);
`KeyError` from reading a missing dict key (unreachable: the aggregated dict is keyed
by exactly the requested tools). -/
inductive MergeErr where
  | typeError : MergeErr
  | attributeError : MergeErr
  | keyError : MergeErr
deriving DecidableEq

/-- The aggregated result dictionary: keys are tool names, in insertion order. -/
abbrev AggMap : Type := List (String × RValue)

/-- `aggregated[tool]` (read). -/
def aggLookup : AggMap → String → Option RValue
  | [], _ => none
  | (k, v) :: rest, t => if k = t then some v else aggLookup rest t

/-- `aggregated[tool] = v` (write): Python dict assignment updates the existing key in
place, or appends a new key at the end.  (Key order is preserved.) -/
def aggUpdate : AggMap → String → RValue → AggMap
  | [], t, nv => [(t, nv)]
  | (k, v) :: rest, t, nv =>
    if k = t then (k, nv) :: rest else (k, v) :: aggUpdate rest t nv

/-- The keys of a Python dict comprehension `{tool: None for tool in tools}`:
first occurrence order, duplicates collapsed. -/
def pyDictKeys : List String → List String
  | [] => []
  | t :: ts => t :: (pyDictKeys ts).filter (fun u => u ≠ t)

/-- `aggregated = {tool: None for tool in tools}`. -/
def initAgg (tools : List String) : AggMap :=
  (pyDictKeys tools).map (fun t => (t, RValue.vnone))

/-- The inner loop body of `aggregate_search_results` for one `(synapse, tool)` pair:
look up the tool's field name (a missing entry makes `getattr(synapse, None)` raise
`TypeError`), fetch the field, skip falsy results, extend lists (initialising from
`None`; `.extend` on a dict or str raises `AttributeError`), assign dicts and other
values. -/
def processTool (syn : Synapse) (agg : AggMap) (tool : String) : Except MergeErr AggMap :=
  match lookupStr field_mapping tool with
  | none => .error .typeError
  | some field_name =>
    match syn.getattrOpt field_name with
    | none => .error .attributeError
    | some result =>
      if result.truthy then
        match result with
        | .vlist xs =>
          match aggLookup agg tool with
          | none => .error .keyError
          | some .vnone => .ok (aggUpdate agg tool (.vlist xs))
          | some (.vlist ys) => .ok (aggUpdate agg tool (.vlist (ys ++ xs)))
          | some (.vdict _) => .error .attributeError
          | some (.vstr _) => .error .attributeError
        | .vdict kvs => .ok (aggUpdate agg tool (.vdict kvs))
        | .vstr s2 => .ok (aggUpdate agg tool (.vstr s2))
        | .vnone => .ok agg
      else .ok agg

/-- `for tool in tools:` for one synapse; a raised exception aborts the whole loop. -/
def processSynapse (syn : Synapse) (agg : AggMap) : List String → Except MergeErr AggMap
  | [] => .ok agg
  | tool :: rest =>
    match processTool syn agg tool with
    | .error e => .error e
    | .ok agg' => processSynapse syn agg' rest

/-- `for synapse_index, synapse in enumerate(responses):` (the index is only logged). -/
def processResponses (tools : List String) (agg : AggMap) :
    List Synapse → Except MergeErr AggMap
  | [] => .ok agg
  | syn :: rest =>
    match processSynapse syn agg tools with
    | .error e => .error e
    | .ok agg' => processResponses tools agg' rest

/-- The final loop: `for tool in tools: if aggregated[tool] is None: aggregated[tool] = {}`.
(Every requested tool is a key of the dict, so the read never raises; a missing key is
treated as a no-op here.) -/
def finalize (agg : AggMap) : List String → AggMap
  | [] => agg
  | tool :: rest =>
    if aggLookup agg tool = some .vnone then finalize (aggUpdate agg tool (.vdict [])) rest
    else finalize agg rest

/-- `aggregate_search_results(responses, tools)` as the merged dict it returns, or the
exception it raises. -/
def aggregate_search_results (responses : List Synapse) (tools : List String) :
    Except MergeErr AggMap :=
  match processResponses tools (initAgg tools) responses with
  | .error e => .error e
  | .ok agg => .ok (finalize agg tools)

/-- Whether one response carries a truthy value for a tool (the condition under which
the merge loop changes that tool's entry). -/
def contributes (syn : Synapse) (tool : String) : Bool :=
  match lookupStr field_mapping tool with
  | none => false
  | some field_name =>
    match syn.getattrOpt field_name with
    | none => false
    | some result => result.truthy

/-- Concatenation of a list of lists, in order (for stating the list-accumulation
behaviour of the merge). -/
def concatAll : List (List String) → List String
  | [] => []
  | xs :: rest => xs ++ concatAll rest

/-- The last non-empty dict of a list of dicts, or `[]` if there is none (for stating
the last-writer-wins behaviour of the merge). -/
def lastNonEmptyDict : List (List (String × Nat)) → List (String × Nat)
  | [] => []
  | d :: rest =>
    match lastNonEmptyDict rest with
    | [] => d
    | r => r

/-- Proof-layer projection of `processTool` onto a single tool's entry: the transition
the loop body applies to the current merged value for that tool (same branches as
`processTool`, with the dict read/write at the tool's key abstracted away). -/
def toolStep (syn : Synapse) (tool : String) (cur : RValue) : Except MergeErr RValue :=
  match lookupStr field_mapping tool with
  | none => .error .typeError
  | some field_name =>
    match syn.getattrOpt field_name with
    | none => .error .attributeError
    | some result =>
      if result.truthy then
        match result with
        | .vlist xs =>
          match cur with
          | .vnone => .ok (.vlist xs)
          | .vlist ys => .ok (.vlist (ys ++ xs))
          | .vdict _ => .error .attributeError
          | .vstr _ => .error .attributeError
        | .vdict kvs => .ok (.vdict kvs)
        | .vstr s2 => .ok (.vstr s2)
        | .vnone => .ok cur
      else .ok cur

/-- Proof-layer fold of `toolStep` over the responses, tracking one tool's merged
value through the whole aggregation. -/
def foldToolStep (t : String) : List Synapse → RValue → Except MergeErr RValue
  | [], cur => .ok cur
  | syn :: rest, cur =>
    match toolStep syn t cur with
    | .error e => .error e
    | .ok v => foldToolStep t rest v

/-- A tool's merged value after some list items `acc` have been accumulated: Python
`None` before the first non-empty list arrives, the accumulated list afterwards. -/
def valueOfAcc (acc : List String) : RValue :=
  if acc = [] then .vnone else .vlist acc

/-! ### Helper lemmas: stream relay -/

/-- The relay yields exactly one framed event per chunk when the producer ends normally. -/
theorem response_stream_event_none (chunks : List String) :
    response_stream_event chunks none = chunks.map frameChunk := by
  induction chunks with
  | nil => rfl
  | cons c cs ih => simp [response_stream_event, ih]

/-! ### Claim theorems: stream relay -/

/-- Claim C1, counterexample: the relay does not emit one `data: <line>\n\n` frame per
line.  The single chunk `"line1\n\nline2"` yields exactly one event, the lines joined by
single newlines with one terminating blank line, which differs from the three separately
framed events the claim asserts. -/
theorem claim_C1_counterexample :
    response_stream_event ["line1\n\nline2"] none
        = ["data: line1\ndata:  \ndata: line2\n\n"] ∧
      (["data: line1\ndata:  \ndata: line2\n\n"] : List String)
        ≠ ["data: line1\n\n", "data:  \n\n", "data: line2\n\n"] := by
  constructor
  · rfl
  · decide

/-- Claim C1, amended: for every chunk the relay yields exactly one framed event; that
event contains one `data: <line>` record per line of the chunk (each blank line replaced
by a single space, never an empty payload), the records joined by single newlines and the
whole event terminated by one blank line.  In particular the chunk `"line1\n\nline2"`
yields the single event `"data: line1\ndata:  \ndata: line2\n\n"`, and a wholly blank
chunk yields `"data:  \n\n"`. -/
theorem claim_C1_amended :
    (∀ chunks : List String, response_stream_event chunks none = chunks.map frameChunk) ∧
      (∀ chunk : String,
        frameChunk chunk
          = pyJoin "\n" ((pySplitNl chunk).map
              (fun line => "data: " ++ (if line = "" then " " else line))) ++ "\n\n") ∧
      frameChunk "line1\n\nline2" = "data: line1\ndata:  \ndata: line2\n\n" ∧
      frameChunk "" = "data:  \n\n" := by
  refine ⟨response_stream_event_none, fun chunk => rfl, rfl, rfl⟩

/-- Claim C8: if the producer fails after yielding some chunks, the relay's output is
exactly the normal framed events of those chunks followed by exactly one terminal error
event carrying the failure's textual description, and nothing after it; the relay is a
total function into event lists, never re-raising the failure. -/
theorem claim_C8_error_containment (chunks : List String) (e : String) :
    response_stream_event chunks (some e) = chunks.map frameChunk ++ [errorEvent e] := by
  induction chunks with
  | nil => rfl
  | cons c cs ih => simp [response_stream_event, ih]

/-! ### Helper lemmas: UIDManager -/

/-- Membership in a shorter take extends to a longer take. -/
theorem mem_take_succ {α : Type} {l : List α} {K : Nat} {x : α} (h : x ∈ l.take K) :
    x ∈ l.take (K + 1) := by
  have hmin : min K (K + 1) = K := Nat.min_eq_left (Nat.le_succ K)
  have h1 : l.take K = (l.take (K + 1)).take K := by
    rw [List.take_take, hmin]
  rw [h1] at h
  exact List.take_subset _ _ h

/-- Filtering a prefix keeps every element inside the same-length prefix of the filtered
list: the code's `top_uids`-then-filter pool is contained in the spec's
filter-then-top-K pool. -/
theorem mem_filter_take {α : Type} (p : α → Bool) :
    ∀ (K : Nat) (l : List α) (x : α), x ∈ (l.take K).filter p → x ∈ (l.filter p).take K := by
  intro K l
  induction l generalizing K with
  | nil => intro x hx; simp at hx
  | cons a t ih =>
    intro x hx
    cases K with
    | zero => simp at hx
    | succ K =>
      rw [List.take_succ_cons] at hx
      by_cases hpa : p a = true
      · rw [List.filter_cons_of_pos hpa] at hx
        rw [List.filter_cons_of_pos hpa, List.take_succ_cons]
        rcases List.mem_cons.mp hx with h | h
        · exact List.mem_cons.mpr (Or.inl h)
        · exact List.mem_cons.mpr (Or.inr (ih K x h))
      · rw [List.filter_cons_of_neg (by simpa using hpa)] at hx
        rw [List.filter_cons_of_neg (by simpa using hpa)]
        exact mem_take_succ (ih K x hx)

/-- After a `resync` with a non-empty reachable set, every uid of the draw list is
reachable, and is either carried over from the previous draw list or a member of the
freshly filtered top-K list. -/
theorem UIDManager.resync_uids_mem (st : UIDState) (ranking avail : List Nat)
    (h : avail ≠ []) :
    ∀ uid ∈ (UIDManager.resync st ranking avail).uids,
      uid ∈ avail ∧
        (uid ∈ st.uids ∨
          uid ∈ (ranking.take st.max_miners_to_use).filter
            (fun uid => decide (uid ∈ avail))) := by
  intro uid hm
  have h' : ¬ avail.length = 0 := by simpa [List.length_eq_zero] using h
  simp only [UIDManager.resync, if_neg h'] at hm
  split at hm
  · -- st.uids was non-empty: uids1 = st.uids.filter (· ∈ avail)
    split at hm
    · -- the filtered carry-over was empty: rebuilt from top_uids
      rcases List.mem_filter.mp hm with ⟨hmem, hp⟩
      exact ⟨by simpa using hp, Or.inr hm⟩
    · -- non-empty carry-over kept
      rcases List.mem_filter.mp hm with ⟨hmem, hp⟩
      exact ⟨by simpa using hp, Or.inl hmem⟩
  · -- st.uids was empty: uids1 = st.uids = []
    next hlen0 =>
    split at hm
    · -- rebuilt from top_uids
      rcases List.mem_filter.mp hm with ⟨hmem, hp⟩
      exact ⟨by simpa using hp, Or.inr hm⟩
    · -- impossible: the kept list is st.uids = [] yet claimed non-empty
      next hne =>
      exfalso
      exact hne (not_not.mp hlen0)

/-- `resync` keeps the draw list duplicate-free, provided the incoming ranking is
duplicate-free (it is an argsort permutation). -/
theorem UIDManager.resync_nodup (st : UIDState) (ranking avail : List Nat)
    (hst : st.uids.Nodup) (hr : ranking.Nodup) :
    (UIDManager.resync st ranking avail).uids.Nodup := by
  simp only [UIDManager.resync]
  split
  · exact hst
  · split
    · split
      · exact (hr.sublist (List.take_sublist _ _)).filter _
      · exact hst.filter _
    · split
      · exact (hr.sublist (List.take_sublist _ _)).filter _
      · exact hst

/-- The refill step of `get_miner_uid` keeps the draw list duplicate-free. -/
theorem UIDManager.refill_nodup (st : UIDState) (ranking : List Nat)
    (hst : st.uids.Nodup) (hr : ranking.Nodup) :
    (UIDManager.refillIfEmpty st ranking).uids.Nodup := by
  unfold UIDManager.refillIfEmpty
  split
  · exact UIDManager.resync_nodup st ranking st.available_uids hst hr
  · exact hst

/-- A successful draw removes the drawn uid from the (possibly refilled) draw list. -/
theorem UIDManager.get_miner_uid_uids {st st' : UIDState} {ranking : List Nat}
    {k uid : Nat} (h : UIDManager.get_miner_uid st ranking k = some (uid, st')) :
    uid ∈ (UIDManager.refillIfEmpty st ranking).uids ∧
      st'.uids = (UIDManager.refillIfEmpty st ranking).uids.erase uid := by
  simp only [UIDManager.get_miner_uid] at h
  split at h
  · exact absurd h (by simp)
  · simp only [Option.some.injEq, Prod.mk.injEq] at h
    obtain ⟨h1, h2⟩ := h
    subst h1
    constructor
    · exact List.get_mem _ _ _
    · rw [← h2]

/-- A draw whose (possibly refilled) draw list is non-empty succeeds, returning an
element of that list and removing it. -/
theorem UIDManager.get_miner_uid_refill_spec (st : UIDState) (ranking : List Nat)
    (k : Nat) (h : (UIDManager.refillIfEmpty st ranking).uids ≠ []) :
    ∃ uid, uid ∈ (UIDManager.refillIfEmpty st ranking).uids ∧
      UIDManager.get_miner_uid st ranking k
        = some (uid, { UIDManager.refillIfEmpty st ranking with
            uids := (UIDManager.refillIfEmpty st ranking).uids.erase uid }) := by
  have hlen : ¬ (UIDManager.refillIfEmpty st ranking).uids.length = 0 := by
    simpa [List.length_eq_zero] using h
  refine ⟨(UIDManager.refillIfEmpty st ranking).uids.get
      ⟨k % (UIDManager.refillIfEmpty st ranking).uids.length,
        Nat.mod_lt k (Nat.pos_of_ne_zero hlen)⟩,
    List.get_mem _ _ _, ?_⟩
  simp only [UIDManager.get_miner_uid]
  rw [dif_neg hlen]

/-- A draw from a state with a non-empty draw list skips the refill and returns the
element at the random index, removing it. -/
theorem UIDManager.get_miner_uid_spec (st : UIDState) (ranking : List Nat) (k : Nat)
    (h : st.uids ≠ []) :
    ∃ uid, uid ∈ st.uids ∧
      UIDManager.get_miner_uid st ranking k
        = some (uid, { st with uids := st.uids.erase uid }) := by
  have hlen : ¬ st.uids.length = 0 := by simpa [List.length_eq_zero] using h
  have hrefill : UIDManager.refillIfEmpty st ranking = st := by
    unfold UIDManager.refillIfEmpty
    rw [if_neg hlen]
  obtain ⟨uid, hmem, heq⟩ :=
    UIDManager.get_miner_uid_refill_spec st ranking k (by rw [hrefill]; exact h)
  rw [hrefill] at hmem heq
  exact ⟨uid, hmem, heq⟩

/-- `get_miner_uid` returns `none` (models the `IndexError` of `random.choice([])`)
exactly when the draw list is still empty after the self-healing refill. -/
theorem UIDManager.get_miner_uid_none_iff (st : UIDState) (ranking : List Nat) (k : Nat) :
    UIDManager.get_miner_uid st ranking k = none ↔
      (UIDManager.refillIfEmpty st ranking).uids = [] := by
  simp only [UIDManager.get_miner_uid]
  split
  · next hlen => simp [List.length_eq_zero.mp hlen]
  · next hlen =>
    have hne : (UIDManager.refillIfEmpty st ranking).uids ≠ [] := by
      simpa [List.length_eq_zero] using hlen
    simp [hne]

/-- Every reachable `UIDManager` state has a duplicate-free draw list. -/
theorem UIDManager.reachable_nodup {st : UIDState} (h : UIDManager.Reachable st) :
    st.uids.Nodup := by
  induction h with
  | init => exact List.nodup_nil
  | resync_step hst hr ih => exact UIDManager.resync_nodup _ _ _ ih hr
  | draw_step hst hr heq ih =>
    obtain ⟨_, h2⟩ := UIDManager.get_miner_uid_uids heq
    rw [h2]
    exact (UIDManager.refill_nodup _ _ ih hr).erase _

/-- From a duplicate-free draw list, any run of at most `len` consecutive draws
succeeds, returns pairwise-distinct uids, and draws only uids of the starting list. -/
theorem UIDManager.drawMany_nodup (ranking : List Nat) :
    ∀ (ks : List Nat) (st : UIDState), st.uids.Nodup → ks.length ≤ st.uids.length →
      ∃ drawn st', UIDManager.drawMany st ranking ks = some (drawn, st') ∧
        drawn.Nodup ∧ (∀ u ∈ drawn, u ∈ st.uids) := by
  intro ks
  induction ks with
  | nil =>
    intro st hnd hlen
    exact ⟨[], st, rfl, List.nodup_nil, by simp⟩
  | cons k ks ih =>
    intro st hnd hlen
    have hne : st.uids ≠ [] := by
      intro hnil
      rw [hnil] at hlen
      simp at hlen
    obtain ⟨uid, hmem, heq⟩ := UIDManager.get_miner_uid_spec st ranking k hne
    have hlen' : ks.length ≤ (st.uids.erase uid).length := by
      have h1 : (st.uids.erase uid).length = st.uids.length - 1 :=
        List.length_erase_of_mem hmem
      simp only [List.length_cons] at hlen
      omega
    obtain ⟨drawn, st'', heq2, hnd2, hsub⟩ :=
      ih { st with uids := st.uids.erase uid } (hnd.erase uid) hlen'
    refine ⟨uid :: drawn, st'', ?_, ?_, ?_⟩
    · simp only [UIDManager.drawMany, heq, heq2]
    · refine List.nodup_cons.mpr ⟨?_, hnd2⟩
      intro hmem2
      have h3 : uid ∈ st.uids.erase uid := hsub uid hmem2
      rw [hnd.mem_erase_iff] at h3
      exact h3.1 rfl
    · intro u hu
      rcases List.mem_cons.mp hu with h | h
      · exact h ▸ hmem
      · exact List.erase_subset _ _ (hsub u h)

/-! ### Claim theorems: UIDManager -/

/-- Claim C2, counterexample: a draw can fail even though the last-known reachable set
is non-empty.  Starting from a freshly constructed manager, a `resync` whose reachable
set is the single uid 5, ranked last among 101 workers, leaves an empty draw list
(uid 5 is outside the top-100 `top_uids`); the subsequent draw re-runs `resync` with the
last-known reachable set `[5]` (non-empty) and still fails with the modelled
`IndexError`. -/
theorem claim_C2_counterexample :
    (UIDManager.resync UIDManager.initState
        ((List.range 101).filter (fun u => u ≠ 5) ++ [5]) [5]).available_uids = [5] ∧
      ([5] : List Nat) ≠ [] ∧
      UIDManager.get_miner_uid
        (UIDManager.resync UIDManager.initState
          ((List.range 101).filter (fun u => u ≠ 5) ++ [5]) [5])
        ((List.range 101).filter (fun u => u ≠ 5) ++ [5]) 0 = none := by
  refine ⟨by decide, by decide, by decide⟩

/-- Claim C2, amended: a call to `get_miner_uid` on an empty draw list first re-runs
`resync` with the last-known reachable set, and then succeeds exactly when the draw
list after that self-healing resync is non-empty.  In particular it fails whenever the
last-known reachable set is empty (the resync is then a no-op), but it can also fail
with a non-empty last-known reachable set, namely when no available uid is among the
ranking's top `max_miners_to_use` entries. -/
theorem claim_C2_amended (st : UIDState) (ranking : List Nat) (k : Nat)
    (h : st.uids = []) :
    ((UIDManager.resync st ranking st.available_uids).uids ≠ [] →
      ∃ uid st', UIDManager.get_miner_uid st ranking k = some (uid, st')) ∧
      ((UIDManager.resync st ranking st.available_uids).uids = [] →
        UIDManager.get_miner_uid st ranking k = none) := by
  have hrefill : UIDManager.refillIfEmpty st ranking
      = UIDManager.resync st ranking st.available_uids := by
    unfold UIDManager.refillIfEmpty
    rw [if_pos (by simp [h])]
  constructor
  · intro hne
    obtain ⟨uid, _, heq⟩ :=
      UIDManager.get_miner_uid_refill_spec st ranking k (by rw [hrefill]; exact hne)
    exact ⟨uid, _, heq⟩
  · intro hnil
    rw [UIDManager.get_miner_uid_none_iff, hrefill]
    exact hnil

/-- Claim C2, amended, witness: a manager whose draw list is empty but whose last-known
reachable set `[0, 1]` meets the top of the ranking `[0, 1]` draws successfully. -/
theorem claim_C2_amended_witness :
    ∃ uid st', UIDManager.get_miner_uid
      { max_miners_to_use := 100, uids := [], available_uids := [0, 1], top_uids := [] }
      [0, 1] 0 = some (uid, st') :=
  (claim_C2_amended
    { max_miners_to_use := 100, uids := [], available_uids := [0, 1], top_uids := [] }
    [0, 1] 0 rfl).1 (by decide)

/-- Claim C3: starting from any reachable manager state, any run of `N` consecutive
`get_miner_uid` calls (no `resync` in between) with `N` at most the size of the draw
list at the start succeeds and returns pairwise-distinct uids. -/
theorem claim_C3_no_repeat (st : UIDState) (ranking : List Nat) (ks : List Nat)
    (hst : UIDManager.Reachable st) (hlen : ks.length ≤ st.uids.length) :
    ∃ drawn st', UIDManager.drawMany st ranking ks = some (drawn, st') ∧
      drawn.Nodup := by
  obtain ⟨drawn, st', h1, h2, _⟩ :=
    UIDManager.drawMany_nodup ranking ks st (UIDManager.reachable_nodup hst) hlen
  exact ⟨drawn, st', h1, h2⟩

/-- Claim C3, witness: after a resync with reachable set `[0, 1, 2]`, two consecutive
draws succeed and return distinct uids. -/
theorem claim_C3_no_repeat_witness :
    ∃ drawn st',
      UIDManager.drawMany (UIDManager.resync UIDManager.initState [0, 1, 2] [0, 1, 2])
        [0, 1, 2] [0, 0] = some (drawn, st') ∧ drawn.Nodup :=
  claim_C3_no_repeat _ [0, 1, 2] [0, 0]
    (UIDManager.Reachable.resync_step UIDManager.Reachable.init (by decide))
    (by decide)

/-- Claim C4, counterexample: the invariant DrawSet ⊆ CandidatePool ∩ reachable fails
after a carry-over resync.  Build a reachable state whose draw list is `[5]` (uid 5 was
top-ranked), then resync with 102 reachable workers among which uid 5 is ranked last:
the code keeps uid 5 in the draw list (it is still reachable), but uid 5 is not in the
CandidatePool — the top-100 reachable workers by rank — as of that last resync. -/
theorem claim_C4_counterexample :
    5 ∈ (UIDManager.resync (UIDManager.resync UIDManager.initState [5] [5])
          ((List.range 102).filter (fun u => u ≠ 5) ++ [5]) (List.range 102)).uids ∧
      5 ∉ candidatePoolSpec ((List.range 102).filter (fun u => u ≠ 5) ++ [5])
          (List.range 102)
          (UIDManager.resync (UIDManager.resync UIDManager.initState [5] [5])
            ((List.range 102).filter (fun u => u ≠ 5) ++ [5])
            (List.range 102)).max_miners_to_use := by
  refine ⟨by decide, by decide⟩

/-- Claim C4, amended: after a `resync` with a non-empty reachable set, every uid of
the draw list is reachable and is either carried over from the previous draw list or a
member of the CandidatePool (the top-K reachable workers by rank, K =
`max_miners_to_use`); carried-over uids may have dropped out of the CandidatePool.  A
draw only removes uids from the (possibly refilled) draw list. -/
theorem claim_C4_amended :
    (∀ (st : UIDState) (ranking avail : List Nat), avail ≠ [] →
      ∀ uid ∈ (UIDManager.resync st ranking avail).uids,
        uid ∈ avail ∧
          (uid ∈ st.uids ∨ uid ∈ candidatePoolSpec ranking avail st.max_miners_to_use)) ∧
      (∀ (st st' : UIDState) (ranking : List Nat) (k uid : Nat),
        UIDManager.get_miner_uid st ranking k = some (uid, st') →
        ∀ u ∈ st'.uids, u ∈ (UIDManager.refillIfEmpty st ranking).uids) := by
  constructor
  · intro st ranking avail h uid hm
    obtain ⟨h1, h2⟩ := UIDManager.resync_uids_mem st ranking avail h uid hm
    refine ⟨h1, ?_⟩
    rcases h2 with h2 | h2
    · exact Or.inl h2
    · exact Or.inr (mem_filter_take _ _ _ _ h2)
  · intro st st' ranking k uid heq u hu
    obtain ⟨_, h2⟩ := UIDManager.get_miner_uid_uids heq
    rw [h2] at hu
    exact List.erase_subset _ _ hu

/-- Claim C4, amended, witness: after `resync` from the initial state with ranking
`[0]` and reachable set `[0]`, the drawn-from uid 0 is reachable and belongs to the
CandidatePool. -/
theorem claim_C4_amended_witness :
    (0 : Nat) ∈ ([0] : List Nat) ∧
      ((0 : Nat) ∈ UIDManager.initState.uids ∨
        0 ∈ candidatePoolSpec [0] [0] UIDManager.initState.max_miners_to_use) :=
  claim_C4_amended.1 UIDManager.initState [0] [0] (by decide) 0 (by decide)

/-! ### Helper lemmas: aggregated dictionary -/

/-- Writing a key and reading it back yields the written value. -/
theorem aggLookup_update_self (agg : AggMap) (t : String) (v : RValue) :
    aggLookup (aggUpdate agg t v) t = some v := by
  induction agg with
  | nil => simp [aggUpdate, aggLookup]
  | cons kv rest ih =>
    obtain ⟨k, w⟩ := kv
    by_cases h : k = t
    · simp [aggUpdate, aggLookup, h]
    · simp [aggUpdate, aggLookup, h, ih]

/-- Writing one key leaves every other key's value unchanged. -/
theorem aggLookup_update_ne (agg : AggMap) {t u : String} (h : u ≠ t) (v : RValue) :
    aggLookup (aggUpdate agg t v) u = aggLookup agg u := by
  induction agg with
  | nil => simp [aggUpdate, aggLookup, Ne.symm h]
  | cons kv rest ih =>
    obtain ⟨k, w⟩ := kv
    by_cases hk : k = t
    · subst hk
      simp [aggUpdate, aggLookup, Ne.symm h]
    · simp [aggUpdate, aggLookup, hk, ih]

/-- Rewriting a key with the value it already holds is a no-op. -/
theorem aggUpdate_self_eq (agg : AggMap) (t : String) (v : RValue)
    (h : aggLookup agg t = some v) : aggUpdate agg t v = agg := by
  induction agg with
  | nil => simp [aggLookup] at h
  | cons kv rest ih =>
    obtain ⟨k, w⟩ := kv
    by_cases hk : k = t
    · subst hk
      simp [aggLookup] at h
      simp [aggUpdate, h]
    · simp [aggLookup, hk] at h
      simp [aggUpdate, hk, ih h]

/-- Writing an existing key preserves the key list. -/
theorem aggUpdate_keys (agg : AggMap) (t : String) (v : RValue)
    (h : t ∈ agg.map Prod.fst) : (aggUpdate agg t v).map Prod.fst = agg.map Prod.fst := by
  induction agg with
  | nil => simp at h
  | cons kv rest ih =>
    obtain ⟨k, w⟩ := kv
    by_cases hk : k = t
    · simp [aggUpdate, hk]
    · simp only [List.map_cons] at h
      rcases List.mem_cons.mp h with h1 | h1
    
      · exact absurd h1.symm (by simpa using hk)
      · simp [aggUpdate, hk, ih h1]

/-- A successful read means the key is present. -/
theorem aggLookup_mem_keys {agg : AggMap} {t : String} {v : RValue}
    (h : aggLookup agg t = some v) : t ∈ agg.map Prod.fst := by
  induction agg with
  | nil => simp [aggLookup] at h
  | cons kv rest ih =>
    obtain ⟨k, w⟩ := kv
    by_cases hk : k = t
    · simp [hk]
    · simp only [aggLookup, if_neg hk] at h
      simp [ih h]

/-- The keys of the Python dict comprehension are exactly the requested tools. -/
theorem mem_pyDictKeys (tools : List String) (t : String) :
    t ∈ pyDictKeys tools ↔ t ∈ tools := by
  induction tools with
  | nil => simp [pyDictKeys]
  | cons a ts ih =>
    by_cases h : t = a
    · simp [pyDictKeys, h]
    · simp [pyDictKeys, List.mem_filter, h, ih]

/-- The initial aggregated dict is keyed by the deduplicated tools. -/
theorem initAgg_keys (tools : List String) :
    (initAgg tools).map Prod.fst = pyDictKeys tools := by
  unfold initAgg
  rw [List.map_map]
  rw [show (Prod.fst ∘ fun t => (t, RValue.vnone)) = id from rfl, List.map_id]

/-- Every requested tool starts out bound to `None`. -/
theorem aggLookup_initAgg (tools : List String) (t : String) (h : t ∈ tools) :
    aggLookup (initAgg tools) t = some .vnone := by
  have h' : t ∈ pyDictKeys tools := (mem_pyDictKeys tools t).mpr h
  unfold initAgg
  generalize pyDictKeys tools = l at h'
  induction l with
  | nil => simp at h'
  | cons a rest ih =>
    by_cases ha : a = t
    · simp [aggLookup, ha]
    · rcases List.mem_cons.mp h' with h1 | h1
      · exact absurd h1.symm ha
      · simp only [List.map_cons, aggLookup, if_neg ha]
        exact ih h1

/-! ### Helper lemmas: one merge-loop body -/

/-- When the tool's entry is present, the loop body is exactly `toolStep` applied to
that entry (errors propagate; a successful step writes the new value back). -/
theorem processTool_eq_toolStep (syn : Synapse) (agg : AggMap) (tool : String)
    (cur : RValue) (h : aggLookup agg tool = some cur) :
    processTool syn agg tool
      = match toolStep syn tool cur with
        | .error e => .error e
        | .ok v => .ok (aggUpdate agg tool v) := by
  unfold processTool toolStep
  cases hl : lookupStr field_mapping tool with
  | none => simp only [hl]
  | some fn =>
    simp only [hl]
    cases hg : syn.getattrOpt fn with
    | none => simp only [hg]
    | some result =>
      simp only [hg]
      by_cases ht : result.truthy
      · cases result with
        | vnone => simp [RValue.truthy] at ht
        | vlist xs =>
          rw [h]
          cases cur <;> simp [ht]
        | vdict kvs => simp [ht]
        | vstr s2 => simp [ht]
      · simp [ht, aggUpdate_self_eq agg tool cur h]

/-- A successful loop body with a present entry comes from a successful `toolStep`,
and the new entry is the step's result. -/
theorem processTool_ok_of_lookup {syn : Synapse} {agg agg' : AggMap} {tool : String}
    {cur : RValue} (h : aggLookup agg tool = some cur)
    (hp : processTool syn agg tool = .ok agg') :
    ∃ v, toolStep syn tool cur = .ok v ∧ agg' = aggUpdate agg tool v ∧
      aggLookup agg' tool = some v := by
  rw [processTool_eq_toolStep syn agg tool cur h] at hp
  cases hs : toolStep syn tool cur with
  | error e => rw [hs] at hp; simp at hp
  | ok v =>
    rw [hs] at hp
    simp only [Except.ok.injEq] at hp
    exact ⟨v, rfl, hp.symm, by rw [← hp]; exact aggLookup_update_self agg tool v⟩

/-- A successful loop body either leaves the dict unchanged or writes one key. -/
theorem processTool_ok_shape {syn : Synapse} {agg agg' : AggMap} {tool : String}
    (h : processTool syn agg tool = .ok agg') :
    agg' = agg ∨ ∃ v, agg' = aggUpdate agg tool v := by
  unfold processTool at h
  split at h
  · simp at h
  · split at h
    · simp at h
    · split at h
      · split at h
        · split at h
          · simp at h
          · simp only [Except.ok.injEq] at h
            exact Or.inr ⟨_, h.symm⟩
          · simp only [Except.ok.injEq] at h
            exact Or.inr ⟨_, h.symm⟩
          · simp at h
          · simp at h
        · simp only [Except.ok.injEq] at h
          exact Or.inr ⟨_, h.symm⟩
        · simp only [Except.ok.injEq] at h
          exact Or.inr ⟨_, h.symm⟩
        · simp only [Except.ok.injEq] at h
          exact Or.inl h.symm
      · simp only [Except.ok.injEq] at h
        exact Or.inl h.symm

/-- A successful loop body leaves every other tool's entry unchanged. -/
theorem processTool_lookup_ne {syn : Synapse} {agg agg' : AggMap} {tool : String}
    (hp : processTool syn agg tool = .ok agg') {u : String} (h : u ≠ tool) :
    aggLookup agg' u = aggLookup agg u := by
  rcases processTool_ok_shape hp with h1 | ⟨v, h1⟩
  · rw [h1]
  · rw [h1]
    exact aggLookup_update_ne agg h v

/-- A loop body for a tool to which the response contributes nothing either raises or
leaves the dict unchanged. -/
theorem processTool_noncontrib {syn : Synapse} {agg agg' : AggMap} {tool : String}
    (hc : contributes syn tool = false) (h : processTool syn agg tool = .ok agg') :
    agg' = agg := by
  unfold contributes at hc
  unfold processTool at h
  split at h
  · simp at h
  · next fn hl =>
    split at h
    · simp at h
    · next result hg =>
      rw [hl] at hc
      simp only [hg] at hc
      split at h
      · next ht => rw [hc] at ht; exact absurd ht (by simp)
      · simp only [Except.ok.injEq] at h
        exact h.symm

/-! ### Helper lemmas: the merge loops -/

/-- A successful inner loop over tools not containing `t` leaves `t`'s entry
unchanged. -/
theorem processSynapse_lookup_not_mem {syn : Synapse} {t : String} :
    ∀ (tls : List String) (agg agg' : AggMap), t ∉ tls →
      processSynapse syn agg tls = .ok agg' → aggLookup agg' t = aggLookup agg t := by
  intro tls
  induction tls with
  | nil =>
    intro agg agg' _ h
    simp only [processSynapse, Except.ok.injEq] at h
    rw [← h]
  | cons tool rest ih =>
    intro agg agg' hnm h
    simp only [processSynapse] at h
    cases hp : processTool syn agg tool with
    | error e => rw [hp] at h; simp at h
    | ok agg1 =>
      rw [hp] at h
      have ht : t ≠ tool := fun he => hnm (he ▸ List.mem_cons_self tool rest)
      rw [ih agg1 agg' (fun hm => hnm (List.mem_cons_of_mem tool hm)) h]
      exact processTool_lookup_ne hp ht

/-- Projection of a successful inner loop onto one tool occurring exactly once in the
(duplicate-free) tool list: `t`'s entry undergoes exactly one `toolStep`. -/
theorem processSynapse_lookup (syn : Synapse) {t : String} :
    ∀ (tls : List String) (agg agg' : AggMap) (cur : RValue), tls.Nodup → t ∈ tls →
      aggLookup agg t = some cur → processSynapse syn agg tls = .ok agg' →
      ∃ v, toolStep syn t cur = .ok v ∧ aggLookup agg' t = some v := by
  intro tls
  induction tls with
  | nil => intro agg agg' cur _ hmem _ _; simp at hmem
  | cons tool rest ih =>
    intro agg agg' cur hnd hmem hcur h
    simp only [processSynapse] at h
    cases hp : processTool syn agg tool with
    | error e => rw [hp] at h; simp at h
    | ok agg1 =>
      rw [hp] at h
      by_cases he : tool = t
      · subst he
        obtain ⟨v, hv, _, hlk⟩ := processTool_ok_of_lookup hcur hp
        have hnm : tool ∉ rest := (List.nodup_cons.mp hnd).1
        have hpres := processSynapse_lookup_not_mem rest agg1 agg' hnm h
        exact ⟨v, hv, by rw [hpres, hlk]⟩
      · have h1 : aggLookup agg1 t = some cur := by
          rw [processTool_lookup_ne hp (fun hh => he hh.symm)]
          exact hcur
        have hmem' : t ∈ rest := by
          rcases List.mem_cons.mp hmem with h2 | h2
          · exact absurd h2.symm he
          · exact h2
        exact ih agg1 agg' cur (List.nodup_cons.mp hnd).2 hmem' h1 h

/-- Projection of the whole successful response loop onto one tool: `t`'s entry
undergoes the fold of `toolStep` over the responses. -/
theorem processResponses_lookup {tools : List String} {t : String} (hnd : tools.Nodup)
    (hmem : t ∈ tools) :
    ∀ (resps : List Synapse) (agg agg' : AggMap) (cur : RValue),
      aggLookup agg t = some cur → processResponses tools agg resps = .ok agg' →
      ∃ v, foldToolStep t resps cur = .ok v ∧ aggLookup agg' t = some v := by
  intro resps
  induction resps with
  | nil =>
    intro agg agg' cur hcur h
    simp only [processResponses, Except.ok.injEq] at h
    exact ⟨cur, rfl, by rw [← h]; exact hcur⟩
  | cons syn rest ih =>
    intro agg agg' cur hcur h
    simp only [processResponses] at h
    cases hp : processSynapse syn agg tools with
    | error e => rw [hp] at h; simp at h
    | ok agg1 =>
      rw [hp] at h
      obtain ⟨v, hv, hlk⟩ := processSynapse_lookup syn tools agg agg1 cur hnd hmem hcur hp
      obtain ⟨w, hw, hlk2⟩ := ih agg1 agg' v hlk h
      refine ⟨w, ?_, hlk2⟩
      simp only [foldToolStep, hv]
      exact hw

/-- A successful inner loop body for a tool to which the response contributes nothing
leaves that tool's entry unchanged (whatever the other tools do to theirs). -/
theorem processSynapse_noncontrib (syn : Synapse) {t : String}
    (hc : contributes syn t = false) :
    ∀ (tls : List String) (agg agg' : AggMap),
      processSynapse syn agg tls = .ok agg' → aggLookup agg' t = aggLookup agg t := by
  intro tls
  induction tls with
  | nil =>
    intro agg agg' h
    simp only [processSynapse, Except.ok.injEq] at h
    rw [← h]
  | cons tool rest ih =>
    intro agg agg' h
    simp only [processSynapse] at h
    cases hp : processTool syn agg tool with
    | error e => rw [hp] at h; simp at h
    | ok agg1 =>
      rw [hp] at h
      rw [ih agg1 agg' h]
      by_cases he : tool = t
      · subst he
        rw [processTool_noncontrib hc hp]
      · exact processTool_lookup_ne hp (fun hh => he hh.symm)

/-- A successful response loop over responses none of which contributes to `t` leaves
`t`'s entry unchanged. -/
theorem processResponses_noncontrib {tools : List String} {t : String} :
    ∀ (resps : List Synapse) (agg agg' : AggMap),
      (∀ syn ∈ resps, contributes syn t = false) →
      processResponses tools agg resps = .ok agg' →
      aggLookup agg' t = aggLookup agg t := by
  intro resps
  induction resps with
  | nil =>
    intro agg agg' _ h
    simp only [processResponses, Except.ok.injEq] at h
    rw [← h]
  | cons syn rest ih =>
    intro agg agg' hnc h
    simp only [processResponses] at h
    cases hp : processSynapse syn agg tools with
    | error e => rw [hp] at h; simp at h
    | ok agg1 =>
      rw [hp] at h
      rw [ih agg1 agg' (fun s hs => hnc s (List.mem_cons_of_mem syn hs)) h]
      exact processSynapse_noncontrib syn (hnc syn (List.mem_cons_self syn rest)) tools agg agg1 hp

/-- A successful inner loop preserves the key list, provided every tool it visits is
already a key. -/
theorem processSynapse_keys (syn : Synapse) :
    ∀ (tls : List String) (agg agg' : AggMap),
      (∀ u ∈ tls, u ∈ agg.map Prod.fst) →
      processSynapse syn agg tls = .ok agg' →
      agg'.map Prod.fst = agg.map Prod.fst := by
  intro tls
  induction tls with
  | nil =>
    intro agg agg' _ h
    simp only [processSynapse, Except.ok.injEq] at h
    rw [← h]
  | cons tool rest ih =>
    intro agg agg' hks h
    simp only [processSynapse] at h
    cases hp : processTool syn agg tool with
    | error e => rw [hp] at h; simp at h
    | ok agg1 =>
      rw [hp] at h
      have hkeys1 : agg1.map Prod.fst = agg.map Prod.fst := by
        rcases processTool_ok_shape hp with h1 | ⟨v, h1⟩
        · rw [h1]
        · rw [h1]
          exact aggUpdate_keys agg tool v (hks tool (List.mem_cons_self tool rest))
      rw [← hkeys1]
      exact ih agg1 agg'
        (fun u hu => hkeys1 ▸ hks u (List.mem_cons_of_mem tool hu)) h

/-- A successful response loop preserves the key list, provided every requested tool is
already a key. -/
theorem processResponses_keys {tools : List String} :
    ∀ (resps : List Synapse) (agg agg' : AggMap),
      (∀ u ∈ tools, u ∈ agg.map Prod.fst) →
      processResponses tools agg resps = .ok agg' →
      agg'.map Prod.fst = agg.map Prod.fst := by
  intro resps
  induction resps with
  | nil =>
    intro agg agg' _ h
    simp only [processResponses, Except.ok.injEq] at h
    rw [← h]
  | cons syn rest ih =>
    intro agg agg' hks h
    simp only [processResponses] at h
    cases hp : processSynapse syn agg tools with
    | error e => rw [hp] at h; simp at h
    | ok agg1 =>
      rw [hp] at h
      have hkeys1 := processSynapse_keys syn tools agg agg1 hks hp
      rw [← hkeys1]
      exact ih agg1 agg' (fun u hu => hkeys1 ▸ hks u hu) h

/-- The final `None`-to-`{}` loop never changes a non-`None` entry. -/
theorem finalize_lookup_stable {t : String} {v : RValue} (hv : v ≠ .vnone) :
    ∀ (tls : List String) (agg : AggMap), aggLookup agg t = some v →
      aggLookup (finalize agg tls) t = some v := by
  intro tls
  induction tls with
  | nil => intro agg h; exact h
  | cons tool rest ih =>
    intro agg h
    simp only [finalize]
    split
    · next hl =>
      by_cases he : tool = t
      · subst he
        rw [h] at hl
        simp only [Option.some.injEq] at hl
        exact absurd hl hv
      · refine ih _ ?_
        rw [aggLookup_update_ne agg (fun hh => he hh.symm) _]
        exact h
    · exact ih agg h

/-- The final loop rewrites a still-`None` entry of a visited tool to the empty dict. -/
theorem finalize_lookup_vnone {t : String} :
    ∀ (tls : List String) (agg : AggMap), t ∈ tls → aggLookup agg t = some .vnone →
      aggLookup (finalize agg tls) t = some (.vdict []) := by
  intro tls
  induction tls with
  | nil => intro agg h; simp at h
  | cons tool rest ih =>
    intro agg hmem h
    simp only [finalize]
    by_cases he : tool = t
    · subst he
      rw [if_pos h]
      exact finalize_lookup_stable (by simp) rest _ (aggLookup_update_self agg tool _)
    · have hmem' : t ∈ rest := by
        rcases List.mem_cons.mp hmem with h2 | h2
        · exact absurd h2.symm he
        · exact h2
      split
      · refine ih _ hmem' ?_
        rw [aggLookup_update_ne agg (fun hh => he hh.symm) _]
        exact h
      · exact ih agg hmem' h

/-- The final loop preserves the key list. -/
theorem finalize_keys :
    ∀ (tls : List String) (agg : AggMap),
      (finalize agg tls).map Prod.fst = agg.map Prod.fst := by
  intro tls
  induction tls with
  | nil => intro agg; rfl
  | cons tool rest ih =>
    intro agg
    simp only [finalize]
    split
    · next hl =>
      rw [ih]
      exact aggUpdate_keys agg tool _ (aggLookup_mem_keys hl)
    · exact ih agg

/-! ### Helper lemmas: per-tool value folds -/

/-- If some member list is non-empty, the concatenation is non-empty. -/
theorem concatAll_ne_nil {lss : List (List String)} (h : ∃ xs ∈ lss, xs ≠ []) :
    concatAll lss ≠ [] := by
  induction lss with
  | nil => simp at h
  | cons xs rest ih =>
    obtain ⟨ys, hys, hne⟩ := h
    rcases List.mem_cons.mp hys with h1 | h1
    · subst h1
      simp only [concatAll]
      intro hc
      exact hne (List.append_eq_nil.mp hc).1
    · have := ih ⟨ys, h1, hne⟩
      simp only [concatAll]
      intro hc
      exact this (List.append_eq_nil.mp hc).2

/-- If some member dict is non-empty, the last non-empty dict is non-empty. -/
theorem lastNonEmptyDict_ne_nil {ds : List (List (String × Nat))}
    (h : ∃ d ∈ ds, d ≠ []) : lastNonEmptyDict ds ≠ [] := by
  induction ds with
  | nil => simp at h
  | cons d rest ih =>
    obtain ⟨e, he, hne⟩ := h
    simp only [lastNonEmptyDict]
    rcases List.mem_cons.mp he with h1 | h1
    · subst h1
      cases hr : lastNonEmptyDict rest with
      | nil => exact hne
      | cons p ps => simp
    · have := ih ⟨e, h1, hne⟩
      cases hr : lastNonEmptyDict rest with
      | nil => exact absurd hr this
      | cons p ps => simp

/-- The list branch of one `toolStep`: a truthy (non-empty) incoming list extends the
accumulated list, an empty one is skipped, always successfully. -/
theorem toolStep_list {syn : Synapse} {t f : String} {xs : List String}
    (hf : lookupStr field_mapping t = some f)
    (hg : syn.getattrOpt f = some (RValue.vlist xs)) (acc : List String) :
    toolStep syn t (valueOfAcc acc) = .ok (valueOfAcc (acc ++ xs)) := by
  unfold toolStep
  simp only [hf, hg]
  by_cases hxs : xs = []
  · subst hxs
    simp [RValue.truthy, valueOfAcc]
  · by_cases hacc : acc = []
    · subst hacc
      simp [RValue.truthy, valueOfAcc, hxs]
    · have hne : acc ++ xs ≠ [] := fun hc => hacc (List.append_eq_nil.mp hc).1
      simp [RValue.truthy, valueOfAcc, hxs, hacc, hne]

/-- The fold of `toolStep` over responses whose values for field `f` are all lists is
the running concatenation of the non-empty lists, never an error. -/
theorem foldToolStep_lists {t f : String} (hf : lookupStr field_mapping t = some f) :
    ∀ (resps : List Synapse) (lss : List (List String)) (acc : List String),
      resps.map (fun syn => syn.getattrOpt f) = lss.map (fun xs => some (RValue.vlist xs)) →
      foldToolStep t resps (valueOfAcc acc) = .ok (valueOfAcc (acc ++ concatAll lss)) := by
  intro resps
  induction resps with
  | nil =>
    intro lss acc hv
    have hl : lss = [] := by
      cases lss with
      | nil => rfl
      | cons a b => simp at hv
    subst hl
    simp [foldToolStep, concatAll]
  | cons syn rest ih =>
    intro lss acc hv
    cases lss with
    | nil => simp at hv
    | cons xs lss' =>
      simp only [List.map_cons, List.cons.injEq] at hv
      obtain ⟨hv1, hv2⟩ := hv
      have hstep := toolStep_list hf hv1 acc
      simp only [foldToolStep, hstep]
      rw [ih lss' (acc ++ xs) hv2]
      simp [concatAll, List.append_assoc]

/-- The dict branch of one `toolStep`: a truthy (non-empty) incoming dict replaces the
current value outright, an empty one is skipped, always successfully. -/
theorem toolStep_dict {syn : Synapse} {t f : String} {d : List (String × Nat)}
    (hf : lookupStr field_mapping t = some f)
    (hg : syn.getattrOpt f = some (RValue.vdict d)) (cur : RValue) :
    toolStep syn t cur = .ok (if d = [] then cur else .vdict d) := by
  unfold toolStep
  simp only [hf, hg]
  by_cases hd : d = []
  · subst hd
    simp [RValue.truthy]
  · simp [RValue.truthy, hd]

/-- The fold of `toolStep` over responses whose values for field `f` are all dicts
keeps the last non-empty dict (last writer wins), never an error. -/
theorem foldToolStep_dicts {t f : String} (hf : lookupStr field_mapping t = some f) :
    ∀ (resps : List Synapse) (ds : List (List (String × Nat))) (cur : RValue),
      resps.map (fun syn => syn.getattrOpt f) = ds.map (fun d => some (RValue.vdict d)) →
      foldToolStep t resps cur
        = .ok (if lastNonEmptyDict ds = [] then cur else .vdict (lastNonEmptyDict ds)) := by
  intro resps
  induction resps with
  | nil =>
    intro ds cur hv
    have hl : ds = [] := by
      cases ds with
      | nil => rfl
      | cons a b => simp at hv
    subst hl
    simp [foldToolStep, lastNonEmptyDict]
  | cons syn rest ih =>
    intro ds cur hv
    cases ds with
    | nil => simp at hv
    | cons d ds' =>
      simp only [List.map_cons, List.cons.injEq] at hv
      obtain ⟨hv1, hv2⟩ := hv
      have hstep := toolStep_dict hf hv1 cur
      by_cases hd : d = []
      · subst hd
        rw [if_pos rfl] at hstep
        simp only [foldToolStep, hstep]
        rw [ih ds' cur hv2]
        have hlnd : lastNonEmptyDict ([] :: ds') = lastNonEmptyDict ds' := by
          simp only [lastNonEmptyDict]
          cases lastNonEmptyDict ds' with
          | nil => rfl
          | cons p ps => rfl
        rw [hlnd]
      · rw [if_neg hd] at hstep
        simp only [foldToolStep, hstep]
        rw [ih ds' (.vdict d) hv2]
        have hlnd : lastNonEmptyDict (d :: ds')
            = if lastNonEmptyDict ds' = [] then d else lastNonEmptyDict ds' := by
          simp only [lastNonEmptyDict]
          cases lastNonEmptyDict ds' with
          | nil => rfl
          | cons p ps => simp
        rw [hlnd]
        by_cases hr : lastNonEmptyDict ds' = []
        · simp [hr, hd]
        · simp [hr]

/-- An inner loop that visits an unknown tool raises (once every tool before it has
been processed, successfully or not). -/
theorem processSynapse_unknown_tool (syn : Synapse) {t : String}
    (hf : lookupStr field_mapping t = none) :
    ∀ (tls : List String) (agg : AggMap), t ∈ tls →
      ∃ e, processSynapse syn agg tls = .error e := by
  intro tls
  induction tls with
  | nil => intro agg h; simp at h
  | cons tool rest ih =>
    intro agg hmem
    by_cases he : tool = t
    · subst he
      have hpt : processTool syn agg tool = .error .typeError := by
        unfold processTool
        rw [hf]
      exact ⟨.typeError, by simp only [processSynapse, hpt]⟩
    · cases hp : processTool syn agg tool with
      | error e => exact ⟨e, by simp only [processSynapse, hp]⟩
      | ok agg1 =>
        have hmem' : t ∈ rest := by
          rcases List.mem_cons.mp hmem with h2 | h2
          · exact absurd h2.symm he
          · exact h2
        obtain ⟨e, he2⟩ := ih agg1 hmem'
        refine ⟨e, ?_⟩
        simp only [processSynapse, hp]
        exact he2

/-! ### Claim theorems: result aggregation -/

/-- Claim C5, counterexample: the merge does not always return a map.  With both
requested tools among the nine known ones, a response carrying a dict for
`"Google Search"` followed by a response carrying a list for the same tool makes the
merge raise (the dict value has no `extend`), so no map with the requested key set is
returned. -/
theorem claim_C5_counterexample :
    aggregate_search_results
      [{ search_results := RValue.vdict [("k", 7)] },
       { search_results := RValue.vlist ["r1"] }]
      ["Google Search"] = .error .attributeError := by
  rfl

/-- Claim C5, amended: whenever the merge completes without raising (it raises instead
when a tool's accumulated dict value is followed by a list value, or when an unknown
tool is requested with a non-empty response list), it returns a map whose key set is
exactly the requested tool set, and every requested tool to which no response
contributed a truthy value is bound to the empty dict — never `None` and never
absent. -/
theorem claim_C5_amended (responses : List Synapse) (tools : List String) (m : AggMap)
    (hok : aggregate_search_results responses tools = .ok m) :
    (∀ u, u ∈ m.map Prod.fst ↔ u ∈ tools) ∧
      (∀ t ∈ tools, (∀ syn ∈ responses, contributes syn t = false) →
        aggLookup m t = some (.vdict [])) := by
  unfold aggregate_search_results at hok
  cases hp : processResponses tools (initAgg tools) responses with
  | error e => rw [hp] at hok; simp at hok
  | ok agg =>
    rw [hp] at hok
    simp only [Except.ok.injEq] at hok
    have hinv : ∀ u ∈ tools, u ∈ (initAgg tools).map Prod.fst := by
      intro u hu
      rw [initAgg_keys]
      exact (mem_pyDictKeys tools u).mpr hu
    constructor
    · intro u
      have hkeys : m.map Prod.fst = pyDictKeys tools := by
        rw [← hok, finalize_keys,
          processResponses_keys responses (initAgg tools) agg hinv hp, initAgg_keys]
      rw [hkeys]
      exact mem_pyDictKeys tools u
    · intro t ht hnc
      have h1 : aggLookup agg t = some .vnone := by
        rw [processResponses_noncontrib responses (initAgg tools) agg hnc hp]
        exact aggLookup_initAgg tools t ht
      rw [← hok]
      exact finalize_lookup_vnone tools agg ht h1

/-- Claim C5, amended, witness: an empty response list with one requested tool yields
the map binding that tool to the empty dict. -/
theorem claim_C5_amended_witness :
    (∀ u, u ∈ ([("Twitter Search", RValue.vdict [])] : AggMap).map Prod.fst ↔
        u ∈ ["Twitter Search"]) ∧
      (∀ t ∈ ["Twitter Search"], (∀ syn ∈ ([] : List Synapse), contributes syn t = false) →
        aggLookup [("Twitter Search", RValue.vdict [])] t = some (.vdict [])) :=
  claim_C5_amended [] ["Twitter Search"] [("Twitter Search", RValue.vdict [])] rfl

/-- Claim C6, counterexample: when every per-response value for a tool is a sequence
but all of them are empty, the merged value is not the (empty) concatenation of the
sequences: the tool falls back to the empty dict default, which is a different value. -/
theorem claim_C6_counterexample :
    aggregate_search_results [{ search_results := RValue.vlist [] }] ["Google Search"]
        = .ok [("Google Search", RValue.vdict [])] ∧
      RValue.vdict [] ≠ RValue.vlist (concatAll [[]]) := by
  refine ⟨by rfl, by decide⟩

/-- Claim C6, amended: for a known requested tool whose per-response values are all
sequences, if at least one of them is non-empty and the merge completes, the merged
value is exactly the concatenation of all the sequences in response arrival order
(empty sequences are skipped, which does not change the concatenation); if every
sequence is empty the tool instead ends at the empty-dict default. -/
theorem claim_C6_amended (responses : List Synapse) (tools : List String) (m : AggMap)
    (t f : String) (lss : List (List String))
    (hf : lookupStr field_mapping t = some f)
    (hvals : responses.map (fun syn => syn.getattrOpt f)
        = lss.map (fun xs => some (RValue.vlist xs)))
    (hne : ∃ xs ∈ lss, xs ≠ [])
    (ht : t ∈ tools) (hnd : tools.Nodup)
    (hok : aggregate_search_results responses tools = .ok m) :
    aggLookup m t = some (.vlist (concatAll lss)) := by
  unfold aggregate_search_results at hok
  cases hp : processResponses tools (initAgg tools) responses with
  | error e => rw [hp] at hok; simp at hok
  | ok agg =>
    rw [hp] at hok
    simp only [Except.ok.injEq] at hok
    obtain ⟨v, hfold, hlk⟩ := processResponses_lookup hnd ht responses (initAgg tools)
      agg RValue.vnone (aggLookup_initAgg tools t ht) hp
    have hfold2 := foldToolStep_lists hf responses lss [] hvals
    have h00 : valueOfAcc ([] : List String) = RValue.vnone := rfl
    rw [h00, List.nil_append] at hfold2
    rw [hfold2] at hfold
    simp only [Except.ok.injEq] at hfold
    subst hfold
    have hvne : valueOfAcc (concatAll lss) = .vlist (concatAll lss) := by
      unfold valueOfAcc
      rw [if_neg (concatAll_ne_nil hne)]
    rw [hvne] at hlk
    rw [← hok]
    exact finalize_lookup_stable (by simp) tools agg hlk

/-- Claim C6, amended, witness: responses carrying the lists `[a, b]` and `[c]` for
`"Google Search"` merge to `[a, b, c]` in that order. -/
theorem claim_C6_amended_witness :
    aggLookup [("Google Search", RValue.vlist ["a", "b", "c"])] "Google Search"
      = some (.vlist (concatAll [["a", "b"], ["c"]])) :=
  claim_C6_amended
    [{ search_results := RValue.vlist ["a", "b"] },
     { search_results := RValue.vlist ["c"] }]
    ["Google Search"] [("Google Search", RValue.vlist ["a", "b", "c"])]
    "Google Search" "search_results" [["a", "b"], ["c"]]
    rfl rfl (by decide) (by decide) (by decide) rfl

/-- Claim C7: for a known requested tool whose per-response values are all structured
dicts, if at least one of them is non-empty and the merge completes, the merged value
is exactly the dict supplied by the last response (in arrival order) whose dict was
non-empty — dicts replace rather than combine. -/
theorem claim_C7_map_replace (responses : List Synapse) (tools : List String)
    (m : AggMap) (t f : String) (ds : List (List (String × Nat)))
    (hf : lookupStr field_mapping t = some f)
    (hvals : responses.map (fun syn => syn.getattrOpt f)
        = ds.map (fun d => some (RValue.vdict d)))
    (hne : ∃ d ∈ ds, d ≠ [])
    (ht : t ∈ tools) (hnd : tools.Nodup)
    (hok : aggregate_search_results responses tools = .ok m) :
    aggLookup m t = some (.vdict (lastNonEmptyDict ds)) := by
  unfold aggregate_search_results at hok
  cases hp : processResponses tools (initAgg tools) responses with
  | error e => rw [hp] at hok; simp at hok
  | ok agg =>
    rw [hp] at hok
    simp only [Except.ok.injEq] at hok
    obtain ⟨v, hfold, hlk⟩ := processResponses_lookup hnd ht responses (initAgg tools)
      agg RValue.vnone (aggLookup_initAgg tools t ht) hp
    have hfold2 := foldToolStep_dicts hf responses ds RValue.vnone hvals
    rw [if_neg (lastNonEmptyDict_ne_nil hne)] at hfold2
    rw [hfold2] at hfold
    simp only [Except.ok.injEq] at hfold
    subst hfold
    rw [← hok]
    exact finalize_lookup_stable (by simp) tools agg hlk

/-- Claim C7, witness: responses carrying the dicts `{x: 1}` then `{y: 2}` for
`"Twitter Search"` merge to `{y: 2}` — last writer wins. -/
theorem claim_C7_map_replace_witness :
    aggLookup [("Twitter Search", RValue.vdict [("y", 2)])] "Twitter Search"
      = some (.vdict (lastNonEmptyDict [[("x", 1)], [("y", 2)]])) :=
  claim_C7_map_replace
    [{ miner_tweets := RValue.vdict [("x", 1)] },
     { miner_tweets := RValue.vdict [("y", 2)] }]
    ["Twitter Search"] [("Twitter Search", RValue.vdict [("y", 2)])]
    "Twitter Search" "miner_tweets" [[("x", 1)], [("y", 2)]]
    rfl rfl (by decide) (by decide) (by decide) rfl

/-- Claim C9: a response carrying a dict for a tool followed by a response carrying a
list for the same tool makes the merge raise (the accumulated dict value does not
support `extend`) instead of returning a merged map — the whole merge aborts. -/
theorem claim_C9_map_then_list_raises :
    aggregate_search_results
      [{ miner_tweets := RValue.vdict [("x", 1)] },
       { miner_tweets := RValue.vlist ["a"] }]
      ["Twitter Search"] = .error .attributeError := by
  rfl

/-- Claim C10: for every requested tool outside the nine-entry field-mapping table,
a non-empty response list makes the merge raise (the `None` field name reaches
`getattr`) instead of returning a map binding that tool to the empty default. -/
theorem claim_C10_unknown_tool_raises (t : String) (responses : List Synapse)
    (tools : List String) (hf : lookupStr field_mapping t = none)
    (ht : t ∈ tools) (hr : responses ≠ []) :
    ∃ e, aggregate_search_results responses tools = .error e := by
  cases responses with
  | nil => exact absurd rfl hr
  | cons syn rest =>
    obtain ⟨e, he⟩ := processSynapse_unknown_tool syn hf tools (initAgg tools) ht
    refine ⟨e, ?_⟩
    unfold aggregate_search_results
    simp only [processResponses, he]

/-- Claim C10, witness: requesting the unknown tool `"Bing Search"` with one (empty)
response makes the merge raise. -/
theorem claim_C10_unknown_tool_raises_witness :
    ∃ e, aggregate_search_results [{}] ["Bing Search"] = .error e :=
  claim_C10_unknown_tool_raises "Bing Search" [{}] ["Bing Search"] rfl
    (by decide) (by decide)
